import Mathlib

/-!
# egloo/utils-go: bit helpers, field-set builder, value binder and log facade

A shallow embedding of `src/bitwise/bitwise.go` and `src/log/log.go`, followed by the
properties proved about it.

Conventions of the embedding

* A Go `byte` is a `Nat` below `256`; a shift that can overflow is reduced `% 256`.
* A Go `interface{}` value is a `Go.Value σ`, where `σ` is the type of the program state a
  `Valuer` closure may read and update.  A `Valuer` is a pair of functions on `σ`: the value
  it returns and the state it leaves behind.
* A Go `map[string]interface{}` is an association list with pairwise distinct keys, updated
  by `logrus.Fields.store` and read by `logrus.Fields.load`.
* A runtime panic of a function that otherwise returns a value is the result `none`.
* The logging backend is the library `github.com/Sirupsen/logrus`, whose code is outside
  the repository.  The few library functions that `log.go` calls are transcribed in the
  namespaces `logrus`, `lfshook` and `rotatelogs` from the library sources (`logger.go`,
  `entry.go`, `exported.go`, `hooks.go`).  Timestamps and the byte-level rendering of a
  record are left out: a record is its severity, its message text and its data fields.
* A `for i := a; i < n; i += 2` loop over a slice whose length does not change is a fold
  over the index list `stride2 a n`.
-/

/-! ## Definitions -/

namespace bitwise

/-- The byte-typed constant shift `1 << pos` of `bitwise.go`: the left operand takes the
type `byte`, so the shifted value is reduced modulo `256`. -/
def bitMask (pos : Nat) : Nat := (1 <<< pos) % 256

/-- Transcription of `SetBit`: `n |= (1 << pos)`. -/
def SetBit (n pos : Nat) : Nat := n ||| bitMask pos

/-- Transcription of `ClearBit`: `n &^= (1 << pos)`; and-not on a byte is the conjunction
with the complement of the mask within eight bits. -/
def ClearBit (n pos : Nat) : Nat := n &&& (bitMask pos ^^^ 255)

/-- Transcription of `HasBit`: `val := n & (1 << pos); return val > 0`. -/
def HasBit (n pos : Nat) : Bool := decide (n &&& bitMask pos > 0)

end bitwise

namespace Go

/-- Values of the Go type `interface{}` that the logging package handles: `nil`, a string,
an integer, an `error` (by its text), or a `Valuer`, a `func() interface{}` given by the
value it returns in a program state and the program state it leaves. -/
inductive Value (σ : Type) where
  | nil : Value σ
  | str (s : String) : Value σ
  | int (n : Int) : Value σ
  | err (text : String) : Value σ
  | valuer (result : σ → Value σ) (effect : σ → σ) : Value σ

/-- The indices visited by `for i := start; i < stop; i += 2`. -/
def stride2 (start stop : Nat) : List Nat :=
  (List.range ((stop + 1 - start) / 2)).map (fun j => start + 2 * j)

/-- How a process stands: still running, ended by `os.Exit`, or unwinding a panic. -/
inductive Status where
  | running : Status
  | exited (code : Nat) : Status
  | panicked : Status
  deriving DecidableEq, Repr

end Go

namespace logrus

open Go

/-- Severity levels of logrus, in the order of their numeric values `0 .. 5`. -/
inductive Level where
  | PanicLevel : Level
  | FatalLevel : Level
  | ErrorLevel : Level
  | WarnLevel : Level
  | InfoLevel : Level
  | DebugLevel : Level
  deriving DecidableEq, Repr

/-- Numeric value of a level (`PanicLevel` is `0`, `DebugLevel` is `5`). -/
def Level.toNat : Level → Nat
  | .PanicLevel => 0
  | .FatalLevel => 1
  | .ErrorLevel => 2
  | .WarnLevel => 3
  | .InfoLevel => 4
  | .DebugLevel => 5

/-- The type `logrus.Fields`, a `map[string]interface{}`. -/
abbrev Fields (σ : Type) := List (String × Value σ)

/-- Map assignment `m[key] = v`: overwrite the entry of `key`, or add one. -/
def Fields.store {σ : Type} : Fields σ → String → Value σ → Fields σ
  | [], key, v => [(key, v)]
  | (k, x) :: rest, key, v =>
    if k = key then (key, v) :: rest else (k, x) :: Fields.store rest key v

/-- Map read `m[key]`, with `none` for an absent key. -/
def Fields.load {σ : Type} : Fields σ → String → Option (Value σ)
  | [], _ => none
  | (k, x) :: rest, key => if k = key then some x else Fields.load rest key

/-- The keys of a map. -/
def Fields.keys {σ : Type} (m : Fields σ) : List String := m.map Prod.fst

/-- The number of entries, `len(m)`. -/
def Fields.len {σ : Type} (m : Fields σ) : Nat := m.length

/-- One log record: severity, message text and data fields. -/
structure Record (σ : Type) where
  Level : Level
  Message : String
  Data : Fields σ

/-- The two formatters `log.go` can meet: the default text one and `JSONFormatter`. -/
inductive Formatter where
  | Text : Formatter
  | JSON : Formatter
  deriving DecidableEq, Repr

end logrus

namespace rotatelogs

/-- A rotating writer as configured by `rotatelogs.New`: file-name pattern, link name,
maximum age and rotation time (both in seconds). -/
structure RotateLogs where
  pattern : String
  linkName : String
  maxAge : Nat
  rotationTime : Nat
  deriving DecidableEq, Repr

/-- The call `rotatelogs.New(pattern, WithLinkName, WithMaxAge, WithRotationTime)`.  Whether
the library accepts the pattern is an input: `failure` is the error it reports, if any. -/
def New (failure : Option String) (pattern linkName : String) (maxAge rotationTime : Nat) :
    Except String RotateLogs :=
  match failure with
  | some e => .error e
  | none => .ok ⟨pattern, linkName, maxAge, rotationTime⟩

end rotatelogs

namespace lfshook

open logrus rotatelogs

/-- The argument type of `lfshook.NewHook`: a writer for each listed level. -/
abbrev WriteMap := List (Level × RotateLogs)

/-- A hook made by `lfshook.NewHook`: it keeps the map it was given. -/
structure Hook where
  writers : WriteMap
  deriving DecidableEq, Repr

/-- The constructor `lfshook.NewHook(levelMap)`. -/
def NewHook (levelMap : WriteMap) : Hook := ⟨levelMap⟩

/-- The levels a hook fires on: the keys of its map. -/
def Hook.Levels (h : Hook) : List Level := h.writers.map Prod.fst

/-- The writer a hook holds for a level. -/
def Hook.writerFor (h : Hook) (level : Level) : Option RotateLogs :=
  (h.writers.find? (fun p => decide (p.1 = level))).map Prod.snd

end lfshook

namespace logrus

open Go rotatelogs lfshook

/-- A `logrus.Logger`: the records written to its `Out`, oldest first, its hooks in the
order they were added, its formatter and its level threshold. -/
structure Logger (σ : Type) where
  Out : List (Record σ)
  Hooks : List Hook
  Formatter : Formatter
  Level : Level

/-- A pointer of type `*logrus.Logger`: it is the standard logger of the process or it is
another logger object. -/
inductive LoggerRef where
  | std : LoggerRef
  | own : LoggerRef
  deriving DecidableEq, Repr

/-- A `logrus.Entry`: the logger it writes through and its data fields. -/
structure Entry (σ : Type) where
  Logger : LoggerRef
  Data : Fields σ

/-- The state of the process that logging acts on: the standard logger, one further logger
object, what the rotating-file writers have received (oldest first) and whether the process
still runs. -/
structure World (σ : Type) where
  std : Logger σ
  own : Logger σ
  sink : List (RotateLogs × Record σ)
  status : Status

/-- Dereference a logger pointer. -/
def World.logger {σ : Type} (w : World σ) : LoggerRef → Logger σ
  | .std => w.std
  | .own => w.own

/-- Write through a logger pointer. -/
def World.setLogger {σ : Type} (w : World σ) (r : LoggerRef) (l : Logger σ) : World σ :=
  match r with
  | .std => { w with std := l }
  | .own => { w with own := l }

/-- The assignment `p.Level = level` through a logger pointer `p`. -/
def World.setLevel {σ : Type} (w : World σ) (r : LoggerRef) (level : Level) : World σ :=
  w.setLogger r { w.logger r with Level := level }

/-- Statement sequencing: the rest of a function body runs only while the process runs. -/
def World.andThen {σ : Type} (w : World σ) (k : World σ → World σ) : World σ :=
  match w.status with
  | .running => k w
  | _ => w

/-- The number of records written so far to the outputs of the loggers. -/
def World.emitted {σ : Type} (w : World σ) : Nat := w.std.Out.length + w.own.Out.length

/-- The call `os.Exit(code)`. -/
def Exit {σ : Type} (code : Nat) (w : World σ) : World σ := { w with status := .exited code }

/-- The standard logger as `logrus.New()` makes it: no hooks, text formatter, level
`InfoLevel`; nothing written yet. -/
def World.initial (σ : Type) : World σ :=
  { std := ⟨[], [], .Text, .InfoLevel⟩
    own := ⟨[], [], .Text, .InfoLevel⟩
    sink := []
    status := .running }

/-- The method `LevelHooks.Fire`: every hook registered for the level writes the record to
the writer it holds for that level. -/
def fireHooks {σ : Type} (hooks : List Hook) (level : Level) (r : Record σ)
    (sink : List (RotateLogs × Record σ)) : List (RotateLogs × Record σ) :=
  hooks.foldl (fun acc h =>
    if level ∈ h.Levels then
      match h.writerFor level with
      | some wr => acc ++ [(wr, r)]
      | none => acc
    else acc) sink

/-- The method `Entry.log`: fire the hooks of the level, write the record to the output of
the logger, and panic when the level is `PanicLevel`. -/
def Entry.log {σ : Type} (e : Entry σ) (level : Level) (msg : String) (w : World σ) :
    World σ :=
  let lg := w.logger e.Logger
  let r : Record σ := ⟨level, msg, e.Data⟩
  let w1 := { w with sink := fireHooks lg.Hooks level r w.sink }
  let w2 := w1.setLogger e.Logger { lg with Out := lg.Out ++ [r] }
  if level.toNat ≤ Level.PanicLevel.toNat then { w2 with status := .panicked } else w2

/-- The method `Entry.Info`: log at `InfoLevel` when the logger level admits it. -/
def Entry.Info {σ : Type} (Sprint : List (Value σ) → String) (e : Entry σ)
    (args : List (Value σ)) (w : World σ) : World σ :=
  if (w.logger e.Logger).Level.toNat ≥ Level.InfoLevel.toNat then
    e.log .InfoLevel (Sprint args) w
  else w

/-- The method `Entry.Fatal`: log at `FatalLevel` when admitted, then `Exit(1)`. -/
def Entry.Fatal {σ : Type} (Sprint : List (Value σ) → String) (e : Entry σ)
    (args : List (Value σ)) (w : World σ) : World σ :=
  (if (w.logger e.Logger).Level.toNat ≥ Level.FatalLevel.toNat then
    e.log .FatalLevel (Sprint args) w
  else w).andThen (Exit 1)

/-- The method `Entry.Fatalf`, given the text `fmt.Sprintf(format, args...)`: when admitted
it calls `Entry.Fatal` on that text (which logs it and exits), then `Exit(1)`. -/
def Entry.Fatalf {σ : Type} (e : Entry σ) (text : String) (w : World σ) : World σ :=
  (if (w.logger e.Logger).Level.toNat ≥ Level.FatalLevel.toNat then
    ((if (w.logger e.Logger).Level.toNat ≥ Level.FatalLevel.toNat then
        e.log .FatalLevel text w
      else w).andThen (Exit 1))
  else w).andThen (Exit 1)

/-- The function `NewEntry(logger)`: an entry with no data fields. -/
def NewEntry {σ : Type} (logger : LoggerRef) : Entry σ := ⟨logger, []⟩

/-- The method `Entry.WithFields`: a new entry on the same logger whose data are the data
of the entry overwritten by the given fields. -/
def Entry.WithFields {σ : Type} (e : Entry σ) (fields : Fields σ) : Entry σ :=
  ⟨e.Logger, fields.foldl (fun data kv => data.store kv.1 kv.2) e.Data⟩

/-- The package function `logrus.WithFields`: `NewEntry(std).WithFields(fields)`, an entry
that writes through the standard logger. -/
def WithFields {σ : Type} (fields : Fields σ) : Entry σ :=
  (NewEntry LoggerRef.std).WithFields fields

/-- The package function `logrus.SetLevel`: assign the level of the standard logger. -/
def SetLevel {σ : Type} (level : Level) (w : World σ) : World σ :=
  w.setLevel .std level

/-- The package function `logrus.Info`: when the standard logger admits `InfoLevel`, log
through a fresh entry of the standard logger. -/
def Info {σ : Type} (Sprint : List (Value σ) → String) (args : List (Value σ))
    (w : World σ) : World σ :=
  if w.std.Level.toNat ≥ Level.InfoLevel.toNat then
    (NewEntry LoggerRef.std).Info Sprint args w
  else w

/-- The package function `logrus.Fatalf`, given the formatted text: when the standard
logger admits `FatalLevel`, `Entry.Fatalf` on a fresh entry; then `Exit(1)`. -/
def Fatalf {σ : Type} (text : String) (w : World σ) : World σ :=
  (if w.std.Level.toNat ≥ Level.FatalLevel.toNat then
    (NewEntry LoggerRef.std).Fatalf text w
  else w).andThen (Exit 1)

/-- The statement `logger.Logger.Hooks.Add(hook)`. -/
def World.addHook {σ : Type} (w : World σ) (r : LoggerRef) (h : Hook) : World σ :=
  w.setLogger r { w.logger r with Hooks := (w.logger r).Hooks ++ [h] }

/-- The statement `logger.Logger.Formatter = f`. -/
def World.setFormatter {σ : Type} (w : World σ) (r : LoggerRef) (f : Formatter) : World σ :=
  w.setLogger r { w.logger r with Formatter := f }

end logrus

namespace log

open Go logrus rotatelogs lfshook

/-- The loop body of `bindValues` at index `i`, on the slice and the program state:
`if v, ok := keyvals[i].(Valuer); ok { keyvals[i] = v() }`. -/
def bindStep {σ : Type} (st : List (Value σ) × σ) (i : Nat) : List (Value σ) × σ :=
  match st.1[i]? with
  | some (Value.valuer result effect) => (st.1.set i (result st.2), effect st.2)
  | _ => st

/-- Transcription of `bindValues`: the loop `for i := 1; i < len(keyvals); i += 2` over the
body `bindStep`.  The result is the slice after the call and the program state after it. -/
def bindValues {σ : Type} (keyvals : List (Value σ)) (s : σ) : List (Value σ) × σ :=
  (stride2 1 keyvals.length).foldl bindStep (keyvals, s)

/-- The sentinel `ErrMissingValue = errors.New("(MISSING)")`. -/
def ErrMissingValue {σ : Type} : Value σ := .err "(MISSING)"

set_option linter.dupNamespace false in
/-- The type `Fields` of `log.go`: a struct embedding `logrus.Fields`. -/
structure Fields (σ : Type) where
  Fields : logrus.Fields σ

/-- The type `eglooLogger`. -/
structure eglooLogger (σ : Type) where
  errorLevel : Level
  logger : Entry σ

/-- Transcription of `SetLevel`. -/
def SetLevel {σ : Type} (level : Level) (w : World σ) : World σ :=
  logrus.SetLevel level w

/-- Transcription of `eglooLogger.Kinfo`: read both levels, set both to `InfoLevel`, log at
info, write both levels back. -/
def eglooLogger.Kinfo {σ : Type} (Sprint : List (Value σ) → String) (l : eglooLogger σ)
    (args : List (Value σ)) (w : World σ) : World σ :=
  let stdLevel := (w.logger LoggerRef.std).Level
  let loggerLevel := (w.logger l.logger.Logger).Level
  let w1 := SetLevel Level.InfoLevel w
  let w2 := w1.setLevel l.logger.Logger Level.InfoLevel
  let w3 := l.logger.Info Sprint args w2
  let w4 := SetLevel stdLevel w3
  w4.setLevel l.logger.Logger loggerLevel

/-- The text `fmt.Sprintf("%s: %s", msg, err)` for an error whose `Error()` is `err`. -/
def fatalText (msg err : String) : String := msg ++ ": " ++ err

/-- Transcription of `eglooLogger.LogFatalIfError`; an `error` is `none` for `nil` and
otherwise the text of its `Error()`.  Both `Fatalf` statements are sequenced as in the
source: the second runs only if the process still runs after the first. -/
def eglooLogger.LogFatalIfError {σ : Type} (l : eglooLogger σ) (err : Option String)
    (msg : String) (w : World σ) : World σ :=
  match err with
  | none => w
  | some e => (logrus.Fatalf (fatalText msg e) w).andThen (l.logger.Fatalf (fatalText msg e))

/-- Transcription of the package function `Info`. -/
def Info {σ : Type} (Sprint : List (Value σ) → String) (args : List (Value σ))
    (w : World σ) : World σ :=
  logrus.Info Sprint args w

/-- The loop body of `NewFields` at index `i`:
`fields.Fields[args[i].(string)] = args[i+1]`; `none` is the runtime panic of the type
assertion (or of an index out of range). -/
def insertStep {σ : Type} (args : List (Value σ)) (fields : Fields σ) (i : Nat) :
    Option (Fields σ) :=
  match args[i]?, args[i + 1]? with
  | some (Value.str key), some v => some ⟨fields.Fields.store key v⟩
  | _, _ => none

/-- Transcription of `NewFields`: an empty map for no arguments; otherwise the sentinel is
appended to a list of odd length and the loop `for i := 0; i < len(args); i += 2` runs the
body `insertStep`.  The result `none` is a runtime panic. -/
def NewFields {σ : Type} (args : List (Value σ)) : Option (Fields σ) :=
  let fields : Fields σ := ⟨[]⟩
  if args.length = 0 then some fields
  else
    let args := if args.length % 2 ≠ 0 then args ++ [ErrMissingValue] else args
    (stride2 0 args.length).foldlM (insertStep args) fields

/-- The writer both constructors ask for:
`rotatelogs.New("/var/log/<serviceName>.log.%Y%m%d%H%M", WithLinkName("/var/log/<serviceName>.log"),
WithMaxAge(24*time.Hour), WithRotationTime(time.Hour))`, durations in seconds. -/
def newWriter (failure : Option String) (serviceName : String) : Except String RotateLogs :=
  rotatelogs.New failure ("/var/log/" ++ serviceName ++ ".log." ++ "%Y%m%d%H%M")
    ("/var/log/" ++ serviceName ++ ".log") (24 * 3600) 3600

/-- The hook both constructors add: the writer for `InfoLevel` and for `ErrorLevel`. -/
def sinkHook (writer : RotateLogs) : Hook :=
  lfshook.NewHook [(Level.InfoLevel, writer), (Level.ErrorLevel, writer)]

/-- The failure branch shared by both constructors: a fatal record with the service name
and the error as fields, on an entry of the standard logger. -/
def failToCreate {σ : Type} (Sprint : List (Value σ) → String) (serviceName err : String)
    (w : World σ) : World σ :=
  (logrus.WithFields [("serviceName", Value.str serviceName), ("err", Value.err err)]).Fatal
    Sprint [Value.str "Failed to create rotatelogs"] w

/-- Transcription of `NewEglooLogger`; the result is `none` for the `nil` facade.
`failure` is the error of `rotatelogs.New`, if any. -/
def NewEglooLogger {σ : Type} (Sprint : List (Value σ) → String) (failure : Option String)
    (serviceName : String) (w : World σ) : Option (eglooLogger σ) × World σ :=
  match newWriter failure serviceName with
  | .error err => (none, failToCreate Sprint serviceName err w)
  | .ok writer =>
    let logger : Entry σ := logrus.WithFields (Fields.mk []).Fields
    let w1 := w.setFormatter logger.Logger Formatter.JSON
    let w2 := w1.addHook logger.Logger (sinkHook writer)
    (some { errorLevel := Level.PanicLevel, logger := logger }, w2)

/-- Transcription of `NewEglooLoggerWithFields`; the source hands `fields` to
`logrus.WithFields`, which takes the embedded map. -/
def NewEglooLoggerWithFields {σ : Type} (Sprint : List (Value σ) → String)
    (failure : Option String) (serviceName : String) (fields : Fields σ) (w : World σ) :
    Option (eglooLogger σ) × World σ :=
  match newWriter failure serviceName with
  | .error err => (none, failToCreate Sprint serviceName err w)
  | .ok writer =>
    let logger : Entry σ := logrus.WithFields fields.Fields
    let w1 := w.setFormatter logger.Logger Formatter.JSON
    let w2 := w1.addHook logger.Logger (sinkHook writer)
    (some { errorLevel := Level.PanicLevel, logger := logger }, w2)

/-- One constructor call of a program: which constructor, with which arguments, and how
`rotatelogs.New` answers. -/
inductive Construction (σ : Type) where
  | plain (failure : Option String) (serviceName : String) : Construction σ
  | withFields (failure : Option String) (serviceName : String) (fields : Fields σ) :
      Construction σ

/-- Run one constructor call and keep the process state. -/
def Construction.run {σ : Type} (Sprint : List (Value σ) → String) (c : Construction σ)
    (w : World σ) : World σ :=
  match c with
  | .plain failure serviceName => (NewEglooLogger Sprint failure serviceName w).2
  | .withFields failure serviceName fields =>
    (NewEglooLoggerWithFields Sprint failure serviceName fields w).2

/-- The error `rotatelogs.New` answers a constructor call with. -/
def Construction.failure {σ : Type} : Construction σ → Option String
  | .plain failure _ => failure
  | .withFields failure _ _ => failure

/-- The service name of a constructor call. -/
def Construction.serviceName {σ : Type} : Construction σ → String
  | .plain _ serviceName => serviceName
  | .withFields _ serviceName _ => serviceName

/-- The writer a successful constructor call for a service creates. -/
def serviceWriter (serviceName : String) : RotateLogs :=
  ⟨"/var/log/" ++ serviceName ++ ".log." ++ "%Y%m%d%H%M", "/var/log/" ++ serviceName ++ ".log",
    24 * 3600, 3600⟩

/-- Run constructor calls one after the other, each only while the process runs. -/
def constructAll {σ : Type} (Sprint : List (Value σ) → String) (cs : List (Construction σ))
    (w : World σ) : World σ :=
  cs.foldl (fun acc c => acc.andThen (c.run Sprint)) w

end log

/-! ## Reference definitions

Definitions that follow the wording of the specification, or that name what a property
talks about.  None of them is used by the transcriptions above. -/

namespace log

open Go logrus rotatelogs lfshook

/-- The state changes of the Valuers that stand at odd indices, in index order. -/
def oddEffects {σ : Type} : List (Value σ) → List (σ → σ)
  | _ :: Value.valuer _ effect :: rest => effect :: oddEffects rest
  | _ :: _ :: rest => oddEffects rest
  | _ => []

/-- The Valuers that stand at odd indices, in index order. -/
def oddValuers {σ : Type} : List (Value σ) → List (Value σ)
  | _ :: Value.valuer result effect :: rest => Value.valuer result effect :: oddValuers rest
  | _ :: _ :: rest => oddValuers rest
  | _ => []

/-- The number of odd indices that hold a Valuer which the test `marks` recognises as a
counting one. -/
def countingPositions {σ : Type} (marks : Value σ → Bool) (keyvals : List (Value σ)) : Nat :=
  ((oddValuers keyvals).filter marks).length

/-- Apply state changes one after the other. -/
def runEffects {σ : Type} (es : List (σ → σ)) (s : σ) : σ := es.foldl (fun acc e => e acc) s

/-- What a value position holds after binding: what a Valuer returns, or the value itself. -/
def boundValue {σ : Type} (v : Value σ) (s : σ) : Value σ :=
  match v with
  | Value.valuer result _ => result s
  | Value.nil => Value.nil
  | Value.str x => Value.str x
  | Value.int x => Value.int x
  | Value.err x => Value.err x

/-- The program state after binding a value position: changed by a Valuer only. -/
def stateAfter {σ : Type} (v : Value σ) (s : σ) : σ :=
  match v with
  | Value.valuer _ effect => effect s
  | Value.nil => s
  | Value.str _ => s
  | Value.int _ => s
  | Value.err _ => s

/-- The value binder of the specification, pair by pair: a Valuer in value position is
replaced by what it returns, everything else passes through. -/
def bindPairs {σ : Type} : List (Value σ) → σ → List (Value σ) × σ
  | k :: v :: rest, s =>
    (k :: boundValue v s :: (bindPairs rest (stateAfter v s)).1,
      (bindPairs rest (stateAfter v s)).2)
  | [k], s => ([k], s)
  | [], s => ([], s)

/-- The program state after `k` successive bind calls, each on a fresh copy of the same
key/value sequence. -/
def bindRepeatedly {σ : Type} : Nat → List (Value σ) → σ → σ
  | 0, _, s => s
  | k + 1, keyvals, s => bindRepeatedly k keyvals (bindValues keyvals s).2

/-- The argument list after the repair of an odd length: the sentinel is appended. -/
def padArgs {σ : Type} (args : List (Value σ)) : List (Value σ) :=
  if args.length % 2 ≠ 0 then args ++ [ErrMissingValue] else args

/-- Insert the consecutive (key, value) pairs of a list into a map, left to right. -/
def storePairs {σ : Type} : List (Value σ) → logrus.Fields σ → logrus.Fields σ
  | Value.str key :: v :: rest, m => storePairs rest (m.store key v)
  | _, m => m

/-- Whether a list splits into (string key, value) pairs with nothing left over. -/
def pairsOk {σ : Type} : List (Value σ) → Bool
  | Value.str _ :: _ :: rest => pairsOk rest
  | [] => true
  | _ => false

/-- The mapping the specification describes for an argument list: pad an odd list with the
sentinel, then insert the consecutive pairs left to right into the empty map. -/
def referenceFields {σ : Type} (args : List (Value σ)) : logrus.Fields σ :=
  storePairs (padArgs args) []

/-- The consecutive (key, value) pairs of a list, as they stand. -/
def impliedPairs {σ : Type} : List (Value σ) → List (String × Value σ)
  | Value.str key :: v :: rest => (key, v) :: impliedPairs rest
  | _ => []

/-- The string keys found at the even indices of a list, in index order. -/
def evenKeys {σ : Type} : List (Value σ) → List String
  | Value.str key :: _ :: rest => key :: evenKeys rest
  | [Value.str key] => [key]
  | _ => []

/-- Every element at an even index is a string. -/
def KeysAreStrings {σ : Type} (args : List (Value σ)) : Prop :=
  ∀ i, i % 2 = 0 → i < args.length → ∃ key, args[i]? = some (Value.str key)

/-- A rendering of message operands for closed examples: the strings among them, joined. -/
def sprintStrings : List (Value Unit) → String
  | [] => ""
  | Value.str s :: rest => s ++ sprintStrings rest
  | _ :: rest => sprintStrings rest

/-- What an observer reads off a record: its severity and its text. -/
def viewRecord {σ : Type} (r : Record σ) : Level × String := (r.Level, r.Message)

end log

/-! ## Bit primitives -/

namespace bitwise

theorem bitMask_of_lt {p : Nat} (hp : p < 8) : bitMask p = 2 ^ p := by
  unfold bitMask
  rw [Nat.one_shiftLeft]
  apply Nat.mod_eq_of_lt
  calc 2 ^ p < 2 ^ 8 := Nat.pow_lt_pow_right (by decide) hp
    _ = 256 := by norm_num

theorem and_two_pow_pos (x q : Nat) : 0 < x &&& 2 ^ q ↔ x.testBit q = true := by
  constructor
  · intro h
    obtain ⟨i, hi⟩ := Nat.ne_zero_implies_bit_true (Nat.pos_iff_ne_zero.mp h)
    rw [Nat.testBit_and, Nat.testBit_two_pow] at hi
    simp only [Bool.and_eq_true, decide_eq_true_eq] at hi
    obtain ⟨h1, h2⟩ := hi
    subst h2
    exact h1
  · intro h
    apply Nat.pos_iff_ne_zero.mpr
    intro h0
    have hbit : (x &&& 2 ^ q).testBit q = true := by
      rw [Nat.testBit_and, Nat.testBit_two_pow]
      simp [h]
    rw [h0] at hbit
    simp at hbit

theorem HasBit_eq_testBit (n : Nat) {q : Nat} (hq : q < 8) : HasBit n q = n.testBit q := by
  unfold HasBit
  rw [bitMask_of_lt hq]
  cases h : n.testBit q
  · simp only [decide_eq_false_iff_not]
    intro hpos
    rw [gt_iff_lt, and_two_pow_pos] at hpos
    simp [h] at hpos
  · simp only [decide_eq_true_eq]
    exact (and_two_pow_pos n q).mpr h

theorem testBit_SetBit (n : Nat) {p q : Nat} (hp : p < 8) :
    (SetBit n p).testBit q = (n.testBit q || decide (p = q)) := by
  unfold SetBit
  rw [bitMask_of_lt hp, Nat.testBit_or, Nat.testBit_two_pow]

theorem testBit_ClearBit (n : Nat) {p q : Nat} (hp : p < 8) (hq : q < 8) :
    (ClearBit n p).testBit q = (n.testBit q && !decide (p = q)) := by
  unfold ClearBit
  have h255 : (255 : Nat) = 2 ^ 8 - 1 := by norm_num
  rw [bitMask_of_lt hp, Nat.testBit_and, Nat.testBit_xor, Nat.testBit_two_pow, h255,
    Nat.testBit_two_pow_sub_one]
  simp [hq]

theorem SetBit_lt (n : Nat) {p : Nat} (hn : n < 256) (hp : p < 8) : SetBit n p < 256 := by
  unfold SetBit
  rw [bitMask_of_lt hp]
  have h1 : n < 2 ^ 8 := by norm_num; exact hn
  have h2 : 2 ^ p < 2 ^ 8 := Nat.pow_lt_pow_right (by decide) hp
  have h3 := Nat.or_lt_two_pow h1 h2
  norm_num at h3
  exact h3

theorem ClearBit_lt (n : Nat) {p : Nat} (hn : n < 256) : ClearBit n p < 256 := by
  unfold ClearBit
  exact lt_of_le_of_lt Nat.and_le_left hn

/-- C10: for every byte `n` and position `p` in `0..7`, the bit `p` is set after `SetBit`
and clear after `ClearBit`, every other position `q` in `0..7` tests as it did in `n`, both
results are bytes, and the two sample evaluations of the specification hold. -/
theorem SetBit_ClearBit_HasBit (n p : Nat) (hn : n < 256) (hp : p ≤ 7) :
    HasBit (SetBit n p) p = true ∧ HasBit (ClearBit n p) p = false ∧
    (∀ q, q ≤ 7 → q ≠ p →
      HasBit (SetBit n p) q = HasBit n q ∧ HasBit (ClearBit n p) q = HasBit n q) ∧
    SetBit n p < 256 ∧ ClearBit n p < 256 ∧
    HasBit (SetBit 0 3) 3 = true ∧ HasBit (ClearBit 255 3) 3 = false := by
  have hp8 : p < 8 := by omega
  refine ⟨?_, ?_, ?_, SetBit_lt n hn hp8, ClearBit_lt n hn, by decide, by decide⟩
  · rw [HasBit_eq_testBit _ hp8, testBit_SetBit n hp8]
    simp
  · rw [HasBit_eq_testBit _ hp8, testBit_ClearBit n hp8 hp8]
    simp
  · intro q hq hne
    have hq8 : q < 8 := by omega
    have hpq : ¬ p = q := fun h => hne h.symm
    constructor
    · rw [HasBit_eq_testBit _ hq8, HasBit_eq_testBit _ hq8, testBit_SetBit n hp8]
      simp [hpq]
    · rw [HasBit_eq_testBit _ hq8, HasBit_eq_testBit _ hq8, testBit_ClearBit n hp8 hq8]
      simp [hpq]

/-- C10 at the byte `0xA5` and position `3`. -/
theorem SetBit_ClearBit_HasBit_witness :
    (165 < 256 ∧ 3 ≤ 7) ∧
    (HasBit (SetBit 165 3) 3 = true ∧ HasBit (ClearBit 165 3) 3 = false ∧
    (∀ q, q ≤ 7 → q ≠ 3 →
      HasBit (SetBit 165 3) q = HasBit 165 q ∧ HasBit (ClearBit 165 3) q = HasBit 165 q) ∧
    SetBit 165 3 < 256 ∧ ClearBit 165 3 < 256 ∧
    HasBit (SetBit 0 3) 3 = true ∧ HasBit (ClearBit 255 3) 3 = false) :=
  ⟨⟨by decide, by decide⟩, SetBit_ClearBit_HasBit 165 3 (by decide) (by decide)⟩

end bitwise

/-! ## Value binder -/

namespace Go

theorem stride2_add_two (start n : Nat) (h : start ≤ n + 1) :
    stride2 start (n + 2) = start :: (stride2 start n).map (fun i => i + 2) := by
  unfold stride2
  have hlen : (n + 2 + 1 - start) / 2 = (n + 1 - start) / 2 + 1 := by omega
  rw [hlen, List.range_succ_eq_map, List.map_cons, List.map_map, List.map_map]
  refine congrArg₂ _ rfl ?_
  apply List.map_congr_left
  intro j _
  simp only [Function.comp]
  omega

theorem pairs_induction {α : Type} {P : List α → Prop} (h0 : P [])
    (h1 : ∀ a, P [a]) (h2 : ∀ a b l, P l → P (a :: b :: l)) : ∀ l, P l := by
  intro l
  have key : P l ∧ ∀ a, P (a :: l) := by
    induction l with
    | nil => exact ⟨h0, h1⟩
    | cons b l ih => exact ⟨ih.2 b, fun a => h2 a b l ih.1⟩
  exact key.1

end Go

namespace log

open Go logrus rotatelogs lfshook

theorem foldl_bindStep_shift {σ : Type} (k v : Value σ) (idxs : List Nat) :
    ∀ (l : List (Value σ)) (s : σ),
      (idxs.map (fun i => i + 2)).foldl bindStep (k :: v :: l, s) =
        (k :: v :: (idxs.foldl bindStep (l, s)).1, (idxs.foldl bindStep (l, s)).2) := by
  induction idxs with
  | nil => intro l s; rfl
  | cons i idxs ih =>
    intro l s
    simp only [List.map_cons, List.foldl_cons]
    have hstep : bindStep (k :: v :: l, s) (i + 2) =
        (k :: v :: (bindStep (l, s) i).1, (bindStep (l, s) i).2) := by
      unfold bindStep
      simp only [List.getElem?_cons_succ]
      cases hli : l[i]? with
      | none => rfl
      | some x => cases x <;> simp [List.set_cons_succ]
    rw [hstep, ih]

theorem bindStep_one {σ : Type} (k v : Value σ) (l : List (Value σ)) (s : σ) :
    bindStep (k :: v :: l, s) 1 = (k :: boundValue v s :: l, stateAfter v s) := by
  cases v <;> simp [bindStep, boundValue, stateAfter]

theorem bindValues_eq_bindPairs {σ : Type} (keyvals : List (Value σ)) :
    ∀ s : σ, bindValues keyvals s = bindPairs keyvals s := by
  induction keyvals using pairs_induction with
  | h0 => intro s; simp [bindValues, bindPairs, stride2]
  | h1 a => intro s; simp [bindValues, bindPairs, stride2]
  | h2 k v l ih =>
    intro s
    have hrec := ih (stateAfter v s)
    unfold bindValues at hrec
    unfold bindValues
    rw [List.length_cons, List.length_cons, stride2_add_two 1 l.length (by omega),
      List.foldl_cons, bindStep_one, foldl_bindStep_shift, hrec]
    simp [bindPairs]

theorem runEffects_cons_cons {σ : Type} (k v : Value σ) (l : List (Value σ)) (s : σ) :
    runEffects (oddEffects (k :: v :: l)) s = runEffects (oddEffects l) (stateAfter v s) := by
  cases v <;> simp [oddEffects, runEffects, stateAfter]

theorem bindPairs_length {σ : Type} (l : List (Value σ)) :
    ∀ s : σ, (bindPairs l s).1.length = l.length := by
  induction l using pairs_induction with
  | h0 => intro s; simp [bindPairs]
  | h1 a => intro s; simp [bindPairs]
  | h2 k v l ih => intro s; simp [bindPairs, ih]

theorem bindPairs_state {σ : Type} (l : List (Value σ)) :
    ∀ s : σ, (bindPairs l s).2 = runEffects (oddEffects l) s := by
  induction l using pairs_induction with
  | h0 => intro s; simp [bindPairs, oddEffects, runEffects]
  | h1 a => intro s; simp [bindPairs, oddEffects, runEffects]
  | h2 k v l ih => intro s; rw [runEffects_cons_cons, ← ih]; simp [bindPairs]

theorem bindPairs_valuer {σ : Type} (l : List (Value σ)) :
    ∀ (s : σ) (i : Nat) (result : σ → Value σ) (effect : σ → σ), i % 2 = 1 →
      l[i]? = some (Value.valuer result effect) →
      (bindPairs l s).1[i]? = some (result (runEffects (oddEffects (l.take i)) s)) := by
  induction l using pairs_induction with
  | h0 => intro s i result effect _ h; simp at h
  | h1 a =>
    intro s i result effect hi h
    match i, hi with
    | 0, hi => simp at hi
    | j + 1, _ => simp at h
  | h2 k v l ih =>
    intro s i result effect hi h
    match i, hi with
    | 0, hi => simp at hi
    | 1, _ =>
      simp only [List.getElem?_cons_succ, List.getElem?_cons_zero, Option.some.injEq] at h
      subst h
      simp [bindPairs, boundValue, oddEffects, runEffects]
    | j + 2, hi =>
      have hj : j % 2 = 1 := by omega
      simp only [List.getElem?_cons_succ] at h
      have := ih (stateAfter v s) j result effect hj h
      simp only [bindPairs, List.getElem?_cons_succ, List.take_succ_cons]
      rw [this, runEffects_cons_cons]

theorem bindPairs_other {σ : Type} (l : List (Value σ)) :
    ∀ (s : σ) (i : Nat),
      (i % 2 = 0 ∨ ∀ result effect, l[i]? ≠ some (Value.valuer result effect)) →
      (bindPairs l s).1[i]? = l[i]? := by
  induction l using pairs_induction with
  | h0 => intro s i _; simp [bindPairs]
  | h1 a => intro s i _; simp [bindPairs]
  | h2 k v l ih =>
    intro s i h
    match i with
    | 0 => simp [bindPairs]
    | 1 =>
      have hv : ∀ result effect, v ≠ Value.valuer result effect := by
        rcases h with h | h
        · simp at h
        · intro result effect hv
          exact h result effect (by simp [hv])
      cases v with
      | valuer result effect => exact absurd rfl (hv result effect)
      | nil => simp [bindPairs, boundValue]
      | str x => simp [bindPairs, boundValue]
      | int x => simp [bindPairs, boundValue]
      | err x => simp [bindPairs, boundValue]
    | j + 2 =>
      simp only [bindPairs, List.getElem?_cons_succ]
      apply ih
      rcases h with h | h
      · left; omega
      · right
        intro result effect hj
        exact h result effect (by simpa using hj)

theorem bindPairs_id {σ : Type} (l : List (Value σ)) :
    ∀ (s : σ), (∀ i result effect, i % 2 = 1 → l[i]? ≠ some (Value.valuer result effect)) →
      bindPairs l s = (l, s) := by
  induction l using pairs_induction with
  | h0 => intro s _; simp [bindPairs]
  | h1 a => intro s _; simp [bindPairs]
  | h2 k v l ih =>
    intro s h
    have hv : ∀ result effect, v ≠ Value.valuer result effect := by
      intro result effect hv
      exact h 1 result effect (by decide) (by simp [hv])
    have hrest : ∀ i result effect, i % 2 = 1 →
        l[i]? ≠ some (Value.valuer result effect) := by
      intro i result effect hi hl
      have hl2 : (k :: v :: l)[i + 2]? = some (Value.valuer result effect) := by
        simpa using hl
      exact h (i + 2) result effect (by omega) hl2
    cases v with
    | valuer result effect => exact absurd rfl (hv result effect)
    | nil => simp [bindPairs, boundValue, stateAfter, ih s hrest]
    | str x => simp [bindPairs, boundValue, stateAfter, ih s hrest]
    | int x => simp [bindPairs, boundValue, stateAfter, ih s hrest]
    | err x => simp [bindPairs, boundValue, stateAfter, ih s hrest]

/-- C5: `bindValues` keeps the length; an odd index that held a Valuer holds what the
Valuer returns when invoked (in the program state left by the Valuers before it); every
even index, and every index that held no Valuer, is unchanged; and a sequence with no
Valuer at an odd index comes back as it was, with the program state untouched. -/
theorem bindValues_spec {σ : Type} (keyvals : List (Value σ)) (s : σ) :
    (bindValues keyvals s).1.length = keyvals.length ∧
    (∀ i result effect, i % 2 = 1 → keyvals[i]? = some (Value.valuer result effect) →
      (bindValues keyvals s).1[i]? =
        some (result (runEffects (oddEffects (keyvals.take i)) s))) ∧
    (∀ i, i % 2 = 0 → (bindValues keyvals s).1[i]? = keyvals[i]?) ∧
    (∀ i : Nat, (∀ result effect, keyvals[i]? ≠ some (Value.valuer result effect)) →
      (bindValues keyvals s).1[i]? = keyvals[i]?) ∧
    ((∀ i result effect, i % 2 = 1 → keyvals[i]? ≠ some (Value.valuer result effect)) →
      bindValues keyvals s = (keyvals, s)) := by
  rw [bindValues_eq_bindPairs]
  exact ⟨bindPairs_length keyvals s, bindPairs_valuer keyvals s,
    fun i hi => bindPairs_other keyvals s i (Or.inl hi),
    fun i hi => bindPairs_other keyvals s i (Or.inr hi),
    bindPairs_id keyvals s⟩

theorem count_runEffects {σ : Type} (count : σ → Nat) (marks : Value σ → Bool)
    (l : List (Value σ)) :
    (∀ i result effect, i % 2 = 1 → l[i]? = some (Value.valuer result effect) →
      marks (Value.valuer result effect) = true → ∀ s, count (effect s) = count s + 1) →
    (∀ i result effect, i % 2 = 1 → l[i]? = some (Value.valuer result effect) →
      marks (Value.valuer result effect) = false → ∀ s, count (effect s) = count s) →
    ∀ s, count (runEffects (oddEffects l) s) = count s + countingPositions marks l := by
  induction l using pairs_induction with
  | h0 => intro _ _ s; simp [oddEffects, runEffects, countingPositions, oddValuers]
  | h1 a => intro _ _ s; simp [oddEffects, runEffects, countingPositions, oddValuers]
  | h2 k v l ih =>
    intro hup hsame s
    have hup2 : ∀ i result effect, i % 2 = 1 →
        l[i]? = some (Value.valuer result effect) →
        marks (Value.valuer result effect) = true →
        ∀ s, count (effect s) = count s + 1 := by
      intro i result effect hi hl
      have hl2 : (k :: v :: l)[i + 2]? = some (Value.valuer result effect) := by
        simpa using hl
      exact hup (i + 2) result effect (by omega) hl2
    have hsame2 : ∀ i result effect, i % 2 = 1 →
        l[i]? = some (Value.valuer result effect) →
        marks (Value.valuer result effect) = false →
        ∀ s, count (effect s) = count s := by
      intro i result effect hi hl
      have hl2 : (k :: v :: l)[i + 2]? = some (Value.valuer result effect) := by
        simpa using hl
      exact hsame (i + 2) result effect (by omega) hl2
    rw [runEffects_cons_cons, ih hup2 hsame2]
    cases v with
    | valuer result effect =>
      have h1 : (k :: Value.valuer result effect :: l)[1]? =
          some (Value.valuer result effect) := by simp
      cases hm : marks (Value.valuer result effect) with
      | true =>
        have := hup 1 result effect (by decide) h1 hm s
        simp only [stateAfter, countingPositions, oddValuers, List.filter_cons, hm, if_true,
          List.length_cons]
        omega
      | false =>
        have := hsame 1 result effect (by decide) h1 hm s
        simp only [stateAfter, countingPositions, oddValuers, List.filter_cons, hm]
        simp only [Bool.false_eq_true, if_false]
        omega
    | nil => simp [stateAfter, countingPositions, oddValuers]
    | str x => simp [stateAfter, countingPositions, oddValuers]
    | int x => simp [stateAfter, countingPositions, oddValuers]
    | err x => simp [stateAfter, countingPositions, oddValuers]

/-- C6: `bindValues` does not memoize.  For every sequence and every Valuer at one of its odd
indices, in every program state a bind call starts from, that index ends up holding what the
Valuer returns when invoked then, and the call invokes every Valuer at an odd index once,
in index order.  So, when the Valuers that `marks` recognises raise a count by one and the
other Valuers at odd indices leave it alone, one bind call raises the count by the number of
odd indices that hold a recognised Valuer, and `k` bind calls on the same sequence raise it
by `k` times that number. -/
theorem bindValues_reinvokes {σ : Type} (count : σ → Nat) (marks : Value σ → Bool)
    (keyvals : List (Value σ)) (s : σ) :
    (∀ (s0 : σ) i result effect, i % 2 = 1 →
      keyvals[i]? = some (Value.valuer result effect) →
      (bindValues keyvals s0).1[i]? =
        some (result (runEffects (oddEffects (keyvals.take i)) s0))) ∧
    (∀ s0 : σ, (bindValues keyvals s0).2 = runEffects (oddEffects keyvals) s0) ∧
    ((∀ i result effect, i % 2 = 1 → keyvals[i]? = some (Value.valuer result effect) →
        marks (Value.valuer result effect) = true → ∀ s1, count (effect s1) = count s1 + 1) →
      (∀ i result effect, i % 2 = 1 → keyvals[i]? = some (Value.valuer result effect) →
        marks (Value.valuer result effect) = false → ∀ s1, count (effect s1) = count s1) →
      count (bindValues keyvals s).2 = count s + countingPositions marks keyvals ∧
      ∀ k, count (bindRepeatedly k keyvals s) =
        count s + k * countingPositions marks keyvals) := by
  have hstate : ∀ s0, (bindValues keyvals s0).2 = runEffects (oddEffects keyvals) s0 := by
    intro s0
    rw [bindValues_eq_bindPairs]
    exact bindPairs_state keyvals s0
  refine ⟨?_, hstate, ?_⟩
  · intro s0 i result effect hi h
    rw [bindValues_eq_bindPairs]
    exact bindPairs_valuer keyvals s0 i result effect hi h
  · intro hup hsame
    have hone : ∀ s0, count (bindValues keyvals s0).2 =
        count s0 + countingPositions marks keyvals := by
      intro s0
      rw [hstate]
      exact count_runEffects count marks keyvals hup hsame s0
    refine ⟨hone s, ?_⟩
    intro k
    induction k generalizing s with
    | zero => simp [bindRepeatedly]
    | succ k ih =>
      simp only [bindRepeatedly]
      rw [ih, hone, Nat.succ_mul]
      omega

/-- C6 on a sequence of four that holds, at its two value positions, a counting Valuer
(it returns the count and raises it by one) and a Valuer without effect (it returns `nil`):
from a count of `10` the counting Valuer is bound to `10`, one bind call leaves the count at
`11`, and `k` bind calls leave it at `10 + k`. -/
theorem bindValues_reinvokes_witness :
    (bindValues ([Value.str "a", Value.valuer (fun n => Value.int n) (fun n => n + 1),
        Value.str "b", Value.valuer (fun _ => Value.nil) (fun n => n)] :
        List (Value Nat)) 10).1[1]? = some (Value.int 10) ∧
    (bindValues ([Value.str "a", Value.valuer (fun n => Value.int n) (fun n => n + 1),
        Value.str "b", Value.valuer (fun _ => Value.nil) (fun n => n)] :
        List (Value Nat)) 10).2 = 11 ∧
    ∀ k, bindRepeatedly k ([Value.str "a", Value.valuer (fun n => Value.int n) (fun n => n + 1),
        Value.str "b", Value.valuer (fun _ => Value.nil) (fun n => n)] :
        List (Value Nat)) 10 = 10 + k := by
  have hmain := bindValues_reinvokes (fun n : Nat => n)
    (fun v => match v with
      | Value.valuer _ effect => decide (effect 0 = 1)
      | _ => false)
    ([Value.str "a", Value.valuer (fun n => Value.int n) (fun n => n + 1),
        Value.str "b", Value.valuer (fun _ => Value.nil) (fun n => n)] : List (Value Nat)) 10
  obtain ⟨hval, _, hcount⟩ := hmain
  have hup : ∀ i result effect, i % 2 = 1 →
      ([Value.str "a", Value.valuer (fun n => Value.int n) (fun n => n + 1),
        Value.str "b", Value.valuer (fun _ => Value.nil) (fun n => n)] : List (Value Nat))[i]? =
          some (Value.valuer result effect) →
      (match Value.valuer result effect with
        | Value.valuer _ effect => decide (effect 0 = 1)
        | _ => false) = true → ∀ s1 : Nat, effect s1 = s1 + 1 := by
    intro i result effect hi h hm s1
    match i, hi, h with
    | 1, _, h =>
      simp only [List.getElem?_cons_succ, List.getElem?_cons_zero, Option.some.injEq,
        Value.valuer.injEq] at h
      rw [← h.2]
    | 3, _, h =>
      simp only [List.getElem?_cons_succ, List.getElem?_cons_zero, Option.some.injEq,
        Value.valuer.injEq] at h
      rw [← h.2] at hm
      simp at hm
    | 0, hi, _ => simp at hi
    | 2, hi, _ => simp at hi
    | j + 4, _, h => simp at h
  have hsame : ∀ i result effect, i % 2 = 1 →
      ([Value.str "a", Value.valuer (fun n => Value.int n) (fun n => n + 1),
        Value.str "b", Value.valuer (fun _ => Value.nil) (fun n => n)] : List (Value Nat))[i]? =
          some (Value.valuer result effect) →
      (match Value.valuer result effect with
        | Value.valuer _ effect => decide (effect 0 = 1)
        | _ => false) = false → ∀ s1 : Nat, effect s1 = s1 := by
    intro i result effect hi h hm s1
    match i, hi, h with
    | 1, _, h =>
      simp only [List.getElem?_cons_succ, List.getElem?_cons_zero, Option.some.injEq,
        Value.valuer.injEq] at h
      rw [← h.2] at hm
      simp at hm
    | 3, _, h =>
      simp only [List.getElem?_cons_succ, List.getElem?_cons_zero, Option.some.injEq,
        Value.valuer.injEq] at h
      rw [← h.2]
    | 0, hi, _ => simp at hi
    | 2, hi, _ => simp at hi
    | j + 4, _, h => simp at h
  obtain ⟨hone, hmany⟩ := hcount hup hsame
  refine ⟨?_, ?_, ?_⟩
  · have h1 := hval 10 1 (fun n => Value.int n) (fun n => n + 1) (by decide) (by simp)
    simpa [oddEffects, runEffects] using h1
  · simpa [countingPositions, oddValuers] using hone
  · intro k
    have h4 := hmany k
    simpa [countingPositions, oddValuers] using h4

end log

/-! ## Field set builder -/

namespace logrus

open Go

theorem Fields.load_store {σ : Type} (m : Fields σ) (key key2 : String) (v : Value σ) :
    Fields.load (Fields.store m key v) key2 =
      if key = key2 then some v else Fields.load m key2 := by
  induction m with
  | nil => simp [Fields.store, Fields.load]
  | cons p m ih =>
    obtain ⟨k, x⟩ := p
    by_cases hk : k = key
    · subst hk
      by_cases h2 : k = key2 <;> simp [Fields.store, Fields.load, h2]
    · by_cases h2 : k = key2
      · subst h2
        have hne : ¬ key = k := fun h => hk h.symm
        simp [Fields.store, Fields.load, hk, hne]
      · simp [Fields.store, Fields.load, hk, h2, ih]

theorem Fields.mem_keys_store {σ : Type} (m : Fields σ) (key key2 : String) (v : Value σ) :
    key2 ∈ Fields.keys (Fields.store m key v) ↔ key2 = key ∨ key2 ∈ Fields.keys m := by
  induction m with
  | nil => simp [Fields.store, Fields.keys]
  | cons p m ih =>
    obtain ⟨k, x⟩ := p
    by_cases hk : k = key
    · subst hk
      simp [Fields.store, Fields.keys]
    · simp only [Fields.keys] at ih
      simp only [Fields.store, hk, if_false, Fields.keys, List.map_cons, List.mem_cons, ih]
      tauto

theorem Fields.store_of_not_mem {σ : Type} (m : Fields σ) (key : String) (v : Value σ)
    (h : key ∉ Fields.keys m) : Fields.store m key v = m ++ [(key, v)] := by
  induction m with
  | nil => simp [Fields.store]
  | cons p m ih =>
    obtain ⟨k, x⟩ := p
    simp only [Fields.keys, List.map_cons, List.mem_cons, not_or] at h
    have hk : ¬ k = key := fun e => h.1 e.symm
    have hm : key ∉ Fields.keys m := h.2
    simp [Fields.store, hk, ih hm]

theorem Fields.nodup_keys_store {σ : Type} (m : Fields σ) (key : String) (v : Value σ)
    (h : (Fields.keys m).Nodup) : (Fields.keys (Fields.store m key v)).Nodup := by
  induction m with
  | nil => simp [Fields.store, Fields.keys]
  | cons p m ih =>
    obtain ⟨k, x⟩ := p
    simp only [Fields.keys, List.map_cons, List.nodup_cons] at h
    by_cases hk : k = key
    · subst hk
      simp only [Fields.store, if_true, Fields.keys, List.map_cons, List.nodup_cons]
      exact h
    · simp only [Fields.store, hk, if_false, Fields.keys, List.map_cons, List.nodup_cons]
      refine ⟨?_, ih h.2⟩
      intro hmem
      have := (Fields.mem_keys_store m key k v).mp hmem
      rcases this with h1 | h1
      · exact hk h1
      · exact h.1 h1

end logrus

namespace log

open Go logrus rotatelogs lfshook

theorem padArgs_nil {σ : Type} : padArgs ([] : List (Value σ)) = [] := by
  simp [padArgs]

theorem padArgs_single {σ : Type} (a : Value σ) : padArgs [a] = [a, ErrMissingValue] := by
  simp [padArgs]

theorem padArgs_cons_cons {σ : Type} (k v : Value σ) (l : List (Value σ)) :
    padArgs (k :: v :: l) = k :: v :: padArgs l := by
  unfold padArgs
  have h : (k :: v :: l).length % 2 = l.length % 2 := by
    simp only [List.length_cons]
    omega
  rw [h]
  by_cases hl : l.length % 2 ≠ 0 <;> simp [hl]

theorem keysAreStrings_nil {σ : Type} : KeysAreStrings ([] : List (Value σ)) := by
  intro i _ hi
  simp at hi

theorem keysAreStrings_single {σ : Type} (a : Value σ) :
    KeysAreStrings [a] ↔ ∃ key, a = Value.str key := by
  constructor
  · intro h
    obtain ⟨key, hk⟩ := h 0 (by decide) (by simp)
    exact ⟨key, by simpa using hk⟩
  · rintro ⟨key, rfl⟩ i _ hi
    have : i = 0 := by simpa using hi
    subst this
    exact ⟨key, by simp⟩

theorem keysAreStrings_cons_cons {σ : Type} (k v : Value σ) (l : List (Value σ)) :
    KeysAreStrings (k :: v :: l) ↔ (∃ key, k = Value.str key) ∧ KeysAreStrings l := by
  constructor
  · intro h
    constructor
    · obtain ⟨key, hk⟩ := h 0 (by decide) (by simp)
      exact ⟨key, by simpa using hk⟩
    · intro i hi hlt
      obtain ⟨key, hk⟩ := h (i + 2) (by omega) (by simp only [List.length_cons]; omega)
      exact ⟨key, by simpa using hk⟩
  · rintro ⟨⟨key, rfl⟩, hl⟩ i hi hlt
    match i, hi, hlt with
    | 0, _, _ => exact ⟨key, by simp⟩
    | 1, hi, _ => simp at hi
    | j + 2, hi, hlt =>
      have hj : j < l.length := by
        simp only [List.length_cons] at hlt
        omega
      obtain ⟨key2, hk⟩ := hl j (by omega) hj
      exact ⟨key2, by simpa using hk⟩

theorem pairsOk_padArgs {σ : Type} (args : List (Value σ)) :
    pairsOk (padArgs args) = true ↔ KeysAreStrings args := by
  induction args using pairs_induction with
  | h0 => simp [padArgs_nil, pairsOk, keysAreStrings_nil]
  | h1 a =>
    rw [padArgs_single, keysAreStrings_single]
    cases a <;> simp [pairsOk]
  | h2 k v l ih =>
    rw [padArgs_cons_cons, keysAreStrings_cons_cons, ← ih]
    cases k <;> simp [pairsOk]

theorem insertStep_shift {σ : Type} (k v : Value σ) (l : List (Value σ)) (m : Fields σ)
    (i : Nat) : insertStep (k :: v :: l) m (i + 2) = insertStep l m i := by
  unfold insertStep
  have h1 : (k :: v :: l)[i + 2]? = l[i]? := by simp
  have h2 : (k :: v :: l)[i + 2 + 1]? = l[i + 1]? := by
    have : i + 2 + 1 = (i + 1) + 2 := by omega
    rw [this]
    simp
  rw [h1, h2]

theorem foldlM_insertStep_shift {σ : Type} (k v : Value σ) (l : List (Value σ))
    (idxs : List Nat) : ∀ m : Fields σ,
      (idxs.map (fun i => i + 2)).foldlM (insertStep (k :: v :: l)) m =
        idxs.foldlM (insertStep l) m := by
  induction idxs with
  | nil => intro m; rfl
  | cons i idxs ih =>
    intro m
    simp only [List.map_cons, List.foldlM_cons, insertStep_shift]
    cases insertStep l m i with
    | none => rfl
    | some m2 => exact ih m2

theorem insertLoop_eq {σ : Type} (l : List (Value σ)) : ∀ m : Fields σ,
    (stride2 0 l.length).foldlM (insertStep l) m =
      if pairsOk l = true then some ⟨storePairs l m.Fields⟩ else none := by
  induction l using pairs_induction with
  | h0 => intro m; simp [stride2, pairsOk, storePairs]
  | h1 a =>
    intro m
    have hs : stride2 0 1 = [0] := by decide
    rw [List.length_singleton, hs]
    cases a <;> simp [pairsOk, insertStep]
  | h2 k v l ih =>
    intro m
    rw [List.length_cons, List.length_cons, stride2_add_two 0 l.length (by omega),
      List.foldlM_cons]
    cases k with
    | str key =>
      have h0 : insertStep (Value.str key :: v :: l) m 0 =
          some ⟨m.Fields.store key v⟩ := by simp [insertStep]
      rw [h0]
      simp only [Option.some_bind, Option.bind_eq_bind]
      rw [foldlM_insertStep_shift, ih]
      simp [pairsOk, storePairs]
    | nil => simp [insertStep, pairsOk]
    | int x => simp [insertStep, pairsOk]
    | err x => simp [insertStep, pairsOk]
    | valuer r e => simp [insertStep, pairsOk]

theorem NewFields_eq {σ : Type} (args : List (Value σ)) :
    NewFields args =
      if pairsOk (padArgs args) = true then some ⟨referenceFields args⟩ else none := by
  unfold NewFields referenceFields
  by_cases h0 : args.length = 0
  · have : args = [] := List.length_eq_zero.mp h0
    subst this
    simp [padArgs, pairsOk, storePairs]
  · simp only [h0, if_false]
    exact insertLoop_eq (padArgs args) ⟨[]⟩

theorem storePairs_padArgs_single {σ : Type} (key : String) (m : logrus.Fields σ) :
    storePairs (padArgs [Value.str key]) m = m.store key ErrMissingValue := by
  rw [padArgs_single]
  simp [storePairs]

theorem storePairs_padArgs_cons_cons {σ : Type} (key : String) (v : Value σ)
    (l : List (Value σ)) (m : logrus.Fields σ) :
    storePairs (padArgs (Value.str key :: v :: l)) m = storePairs (padArgs l) (m.store key v) := by
  rw [padArgs_cons_cons]
  simp [storePairs]

theorem mem_evenKeys_iff {σ : Type} (args : List (Value σ)) :
    KeysAreStrings args →
    ∀ key, key ∈ evenKeys args ↔ ∃ i, i % 2 = 0 ∧ args[i]? = some (Value.str key) := by
  induction args using pairs_induction with
  | h0 => intro _ key; simp [evenKeys]
  | h1 a =>
    intro h key
    obtain ⟨k0, rfl⟩ := (keysAreStrings_single a).mp h
    simp only [evenKeys, List.mem_singleton]
    constructor
    · rintro rfl
      exact ⟨0, by decide, by simp⟩
    · rintro ⟨i, _, hi⟩
      match i, hi with
      | 0, hi => simpa using hi.symm
      | j + 1, hi => simp at hi
  | h2 k v l ih =>
    intro h key
    obtain ⟨⟨k0, rfl⟩, hl⟩ := (keysAreStrings_cons_cons k v l).mp h
    simp only [evenKeys, List.mem_cons, ih hl key]
    constructor
    · rintro (rfl | ⟨i, hi, hget⟩)
      · exact ⟨0, by decide, by simp⟩
      · exact ⟨i + 2, by omega, by simpa using hget⟩
    · rintro ⟨i, hi, hget⟩
      match i, hi, hget with
      | 0, _, hget => left; simpa using hget.symm
      | 1, hi, _ => simp at hi
      | j + 2, hi, hget => right; exact ⟨j, by omega, by simpa using hget⟩

theorem evenKeys_length {σ : Type} (args : List (Value σ)) :
    KeysAreStrings args → (evenKeys args).length = (args.length + 1) / 2 := by
  induction args using pairs_induction with
  | h0 => intro _; simp [evenKeys]
  | h1 a =>
    intro h
    obtain ⟨k0, rfl⟩ := (keysAreStrings_single a).mp h
    simp [evenKeys]
  | h2 k v l ih =>
    intro h
    obtain ⟨⟨k0, rfl⟩, hl⟩ := (keysAreStrings_cons_cons k v l).mp h
    simp only [evenKeys, List.length_cons, ih hl]
    omega

theorem mem_keys_storePairs {σ : Type} (args : List (Value σ)) :
    KeysAreStrings args → ∀ (m : logrus.Fields σ) key,
      key ∈ Fields.keys (storePairs (padArgs args) m) ↔
        key ∈ Fields.keys m ∨ key ∈ evenKeys args := by
  induction args using pairs_induction with
  | h0 => intro _ m key; simp [padArgs_nil, storePairs, evenKeys]
  | h1 a =>
    intro h m key
    obtain ⟨k0, rfl⟩ := (keysAreStrings_single a).mp h
    rw [storePairs_padArgs_single, Fields.mem_keys_store]
    simp only [evenKeys, List.mem_singleton]
    tauto
  | h2 k v l ih =>
    intro h m key
    obtain ⟨⟨k0, rfl⟩, hl⟩ := (keysAreStrings_cons_cons k v l).mp h
    rw [storePairs_padArgs_cons_cons, ih hl, Fields.mem_keys_store]
    simp only [evenKeys, List.mem_cons]
    tauto

theorem nodup_keys_storePairs {σ : Type} (args : List (Value σ)) :
    KeysAreStrings args → ∀ (m : logrus.Fields σ), (Fields.keys m).Nodup →
      (Fields.keys (storePairs (padArgs args) m)).Nodup := by
  induction args using pairs_induction with
  | h0 => intro _ m hm; simpa [padArgs_nil, storePairs] using hm
  | h1 a =>
    intro h m hm
    obtain ⟨k0, rfl⟩ := (keysAreStrings_single a).mp h
    rw [storePairs_padArgs_single]
    exact Fields.nodup_keys_store m k0 _ hm
  | h2 k v l ih =>
    intro h m hm
    obtain ⟨⟨k0, rfl⟩, hl⟩ := (keysAreStrings_cons_cons k v l).mp h
    rw [storePairs_padArgs_cons_cons]
    exact ih hl _ (Fields.nodup_keys_store m k0 v hm)

theorem load_storePairs_of_not_mem {σ : Type} (args : List (Value σ)) :
    KeysAreStrings args → ∀ (m : logrus.Fields σ) key, key ∉ evenKeys args →
      Fields.load (storePairs (padArgs args) m) key = Fields.load m key := by
  induction args using pairs_induction with
  | h0 => intro _ m key _; simp [padArgs_nil, storePairs]
  | h1 a =>
    intro h m key hk
    obtain ⟨k0, rfl⟩ := (keysAreStrings_single a).mp h
    simp only [evenKeys, List.mem_singleton] at hk
    have hne : ¬ k0 = key := fun e => hk e.symm
    rw [storePairs_padArgs_single, Fields.load_store]
    simp [hne]
  | h2 k v l ih =>
    intro h m key hk
    obtain ⟨⟨k0, rfl⟩, hl⟩ := (keysAreStrings_cons_cons k v l).mp h
    simp only [evenKeys, List.mem_cons, not_or] at hk
    have hne : ¬ k0 = key := fun e => hk.1 e.symm
    rw [storePairs_padArgs_cons_cons, ih hl _ key hk.2, Fields.load_store]
    simp [hne]

theorem load_storePairs_last {σ : Type} (args : List (Value σ)) :
    KeysAreStrings args → ∀ (m : logrus.Fields σ) (i : Nat) key, i % 2 = 0 →
      args[i]? = some (Value.str key) →
      (∀ j, i < j → j % 2 = 0 → args[j]? ≠ some (Value.str key)) →
      Fields.load (storePairs (padArgs args) m) key =
        some (args[i + 1]?.getD ErrMissingValue) := by
  induction args using pairs_induction with
  | h0 => intro _ m i key _ hget; simp at hget
  | h1 a =>
    intro h m i key _ hget _
    obtain ⟨k0, rfl⟩ := (keysAreStrings_single a).mp h
    match i, hget with
    | 0, hget =>
      have hk : k0 = key := by simpa using hget
      subst hk
      rw [storePairs_padArgs_single, Fields.load_store]
      simp
    | j + 1, hget => simp at hget
  | h2 k v l ih =>
    intro h m i key hi hget hlast
    obtain ⟨⟨k0, rfl⟩, hl⟩ := (keysAreStrings_cons_cons k v l).mp h
    rw [storePairs_padArgs_cons_cons]
    match i, hi, hget, hlast with
    | 0, _, hget, hlast =>
      have hk : k0 = key := by simpa using hget
      subst hk
      have hnot : k0 ∉ evenKeys l := by
        intro hmem
        obtain ⟨j, hj, hjget⟩ := (mem_evenKeys_iff l hl k0).mp hmem
        have hj2 : (Value.str k0 :: v :: l)[j + 2]? = some (Value.str k0) := by
          simpa using hjget
        exact hlast (j + 2) (by omega) (by omega) hj2
      rw [load_storePairs_of_not_mem l hl _ k0 hnot, Fields.load_store]
      simp
    | 1, hi, _, _ => simp at hi
    | j + 2, hi, hget, hlast =>
      have hjget : l[j]? = some (Value.str key) := by simpa using hget
      have hjlast : ∀ j2, j < j2 → j2 % 2 = 0 → l[j2]? ≠ some (Value.str key) := by
        intro j2 hlt hev hj2
        have h3 : (Value.str k0 :: v :: l)[j2 + 2]? = some (Value.str key) := by
          simpa using hj2
        exact hlast (j2 + 2) (by omega) (by omega) h3
      rw [ih hl _ j key (by omega) hjget hjlast]
      have hidx : (Value.str k0 :: v :: l)[j + 2 + 1]? = l[j + 1]? := by
        have : j + 2 + 1 = (j + 1) + 2 := by omega
        rw [this]
        simp
      rw [hidx]

theorem storePairs_eq_append {σ : Type} (args : List (Value σ)) :
    KeysAreStrings args → (evenKeys args).Nodup → ∀ (m : logrus.Fields σ),
      (∀ key, key ∈ evenKeys args → key ∉ Fields.keys m) →
      storePairs (padArgs args) m = m ++ impliedPairs (padArgs args) := by
  induction args using pairs_induction with
  | h0 => intro _ _ m _; simp [padArgs_nil, storePairs, impliedPairs]
  | h1 a =>
    intro h _ m hm
    obtain ⟨k0, rfl⟩ := (keysAreStrings_single a).mp h
    rw [storePairs_padArgs_single,
      Fields.store_of_not_mem m k0 _ (hm k0 (by simp [evenKeys])), padArgs_single]
    simp [impliedPairs]
  | h2 k v l ih =>
    intro h hnd m hm
    obtain ⟨⟨k0, rfl⟩, hl⟩ := (keysAreStrings_cons_cons k v l).mp h
    simp only [evenKeys, List.nodup_cons] at hnd
    have hk0 : k0 ∉ Fields.keys m := hm k0 (by simp [evenKeys])
    have hm2 : ∀ key, key ∈ evenKeys l → key ∉ Fields.keys (Fields.store m k0 v) := by
      intro key hkey hmem
      rcases (Fields.mem_keys_store m k0 key v).mp hmem with h1 | h1
      · subst h1
        exact hnd.1 hkey
      · exact hm key (by simp [evenKeys, hkey]) h1
    rw [storePairs_padArgs_cons_cons, ih hl hnd.2 _ hm2, Fields.store_of_not_mem m k0 v hk0,
      padArgs_cons_cons]
    simp [impliedPairs]

theorem len_referenceFields {σ : Type} (args : List (Value σ)) (h : KeysAreStrings args) :
    Fields.len (referenceFields args) = (evenKeys args).dedup.length := by
  unfold Fields.len referenceFields
  have hnd : (Fields.keys (storePairs (padArgs args) ([] : logrus.Fields σ))).Nodup :=
    nodup_keys_storePairs args h [] (by simp [Fields.keys])
  have hmem : ∀ key, key ∈ Fields.keys (storePairs (padArgs args) ([] : logrus.Fields σ)) ↔
      key ∈ evenKeys args := by
    intro key
    rw [mem_keys_storePairs args h]
    simp [Fields.keys]
  have hset : (Fields.keys (storePairs (padArgs args) ([] : logrus.Fields σ))).toFinset =
      (evenKeys args).toFinset := by
    ext key
    simp [hmem]
  have h1 := List.toFinset_card_of_nodup hnd
  rw [hset, List.card_toFinset] at h1
  rw [h1]
  simp [Fields.keys]

theorem NewFields_of_keysAreStrings {σ : Type} (args : List (Value σ))
    (h : KeysAreStrings args) : NewFields args = some ⟨referenceFields args⟩ := by
  rw [NewFields_eq, if_pos ((pairsOk_padArgs args).mpr h)]

/-- C3: when every even-index argument is a string, `NewFields` returns the reference
mapping (pad an odd list with the sentinel, insert the consecutive pairs left to right into
the empty map); its keys are exactly the strings at even indices; a key maps to the value
that follows its last occurrence (the sentinel when nothing follows); with pairwise distinct
keys the mapping is exactly the list of consecutive pairs; and no arguments give the empty
mapping. -/
theorem NewFields_reference {σ : Type} (args : List (Value σ)) (h : KeysAreStrings args) :
    NewFields args = some ⟨referenceFields args⟩ ∧
    (∀ key, key ∈ Fields.keys (referenceFields args) ↔
      ∃ i, i % 2 = 0 ∧ args[i]? = some (Value.str key)) ∧
    (∀ i key, i % 2 = 0 → args[i]? = some (Value.str key) →
      (∀ j, i < j → j % 2 = 0 → args[j]? ≠ some (Value.str key)) →
      Fields.load (referenceFields args) key = some (args[i + 1]?.getD ErrMissingValue)) ∧
    ((evenKeys args).Nodup → referenceFields args = impliedPairs (padArgs args)) ∧
    NewFields ([] : List (Value σ)) = some ⟨[]⟩ := by
  refine ⟨NewFields_of_keysAreStrings args h, ?_, ?_, ?_, ?_⟩
  · intro key
    unfold referenceFields
    rw [mem_keys_storePairs args h, mem_evenKeys_iff args h]
    simp [Fields.keys]
  · intro i key hi hget hlast
    exact load_storePairs_last args h [] i key hi hget hlast
  · intro hnd
    unfold referenceFields
    rw [storePairs_eq_append args h hnd [] (by simp [Fields.keys])]
    simp
  · simp [NewFields]

/-- C3 on three arguments with a repeated key: the later pair wins and the sentinel pads. -/
theorem NewFields_reference_witness :
    KeysAreStrings ([Value.str "a", Value.int 1, Value.str "a"] : List (Value Unit)) ∧
    NewFields ([Value.str "a", Value.int 1, Value.str "a"] : List (Value Unit)) =
      some ⟨[("a", ErrMissingValue)]⟩ := by
  have hk : KeysAreStrings ([Value.str "a", Value.int 1, Value.str "a"] : List (Value Unit)) := by
    rw [keysAreStrings_cons_cons, keysAreStrings_single]
    exact ⟨⟨"a", rfl⟩, ⟨"a", rfl⟩⟩
  refine ⟨hk, ?_⟩
  have h := (NewFields_reference _ hk).1
  rw [h]
  simp [referenceFields, padArgs, storePairs, Fields.store]

/-- C4 fails as stated: for the three arguments `"a", 1, "a"` the result has one entry,
while `(len+1)/2` is two. -/
theorem NewFields_odd_duplicate_key :
    KeysAreStrings ([Value.str "a", Value.int 1, Value.str "a"] : List (Value Unit)) ∧
    ([Value.str "a", Value.int 1, Value.str "a"] : List (Value Unit)).length % 2 = 1 ∧
    (NewFields ([Value.str "a", Value.int 1, Value.str "a"] : List (Value Unit))).map
      (fun f => (Fields.len f.Fields, Fields.keys f.Fields)) = some (1, ["a"]) ∧
    (([Value.str "a", Value.int 1, Value.str "a"] : List (Value Unit)).length + 1) / 2 = 2 := by
  refine ⟨?_, by decide, by decide, by decide⟩
  rw [keysAreStrings_cons_cons, keysAreStrings_single]
  exact ⟨⟨"a", rfl⟩, ⟨"a", rfl⟩⟩

theorem dedup_length_eq_iff (l : List String) : l.dedup.length = l.length ↔ l.Nodup := by
  constructor
  · intro h
    have heq : l.dedup = l := (List.dedup_sublist l).eq_of_length h
    rw [← heq]
    exact List.nodup_dedup l
  · intro h
    rw [h.dedup]

/-- C4, amended: for an odd number of arguments with string keys, `NewFields` returns a
mapping in which the last argument, a key, maps to the sentinel; the number of entries is
the number of distinct keys, which is at most `(len+1)/2` and equals it exactly when the
keys are pairwise distinct. -/
theorem NewFields_odd {σ : Type} (args : List (Value σ)) (hodd : args.length % 2 = 1)
    (h : KeysAreStrings args) :
    ∃ fields key, NewFields args = some fields ∧
      args[args.length - 1]? = some (Value.str key) ∧
      Fields.load fields.Fields key = some ErrMissingValue ∧
      Fields.len fields.Fields = (evenKeys args).dedup.length ∧
      Fields.len fields.Fields ≤ (args.length + 1) / 2 ∧
      (Fields.len fields.Fields = (args.length + 1) / 2 ↔ (evenKeys args).Nodup) := by
  have hlast : (args.length - 1) % 2 = 0 := by omega
  have hlt : args.length - 1 < args.length := by omega
  obtain ⟨key, hkey⟩ := h (args.length - 1) hlast hlt
  refine ⟨⟨referenceFields args⟩, key, NewFields_of_keysAreStrings args h, hkey, ?_, ?_, ?_, ?_⟩
  · have hnone : args[args.length - 1 + 1]? = none := by
      apply List.getElem?_eq_none
      omega
    have := load_storePairs_last args h [] (args.length - 1) key hlast hkey (by
      intro j hj _ hget
      have hjn : args[j]? = none := by
        apply List.getElem?_eq_none
        omega
      rw [hjn] at hget
      exact Option.noConfusion hget)
    rw [hnone] at this
    simpa [referenceFields] using this
  · exact len_referenceFields args h
  · show Fields.len (referenceFields args) ≤ _
    rw [len_referenceFields args h, ← evenKeys_length args h]
    exact (List.dedup_sublist _).length_le
  · show Fields.len (referenceFields args) = _ ↔ _
    rw [len_referenceFields args h, ← evenKeys_length args h]
    exact dedup_length_eq_iff _

/-- C4 (amended) on the single argument `"k"`. -/
theorem NewFields_odd_witness :
    ([Value.str "k"] : List (Value Unit)).length % 2 = 1 ∧
    KeysAreStrings ([Value.str "k"] : List (Value Unit)) ∧
    ∃ fields key, NewFields ([Value.str "k"] : List (Value Unit)) = some fields ∧
      ([Value.str "k"] : List (Value Unit))[0]? = some (Value.str key) ∧
      Fields.load fields.Fields key = some ErrMissingValue ∧
      Fields.len fields.Fields ≤ 1 := by
  have hk : KeysAreStrings ([Value.str "k"] : List (Value Unit)) :=
    (keysAreStrings_single _).mpr ⟨"k", rfl⟩
  obtain ⟨fields, key, h1, h2, h3, _, h5, _⟩ :=
    NewFields_odd ([Value.str "k"] : List (Value Unit)) (by decide) hk
  exact ⟨by decide, hk, fields, key, h1, h2, h3, h5⟩

/-- C7: `NewFields` panics exactly when some element at an even index is not a string; in
particular a list of odd length whose even-index elements are strings yields a mapping. -/
theorem NewFields_panics_iff {σ : Type} (args : List (Value σ)) :
    (NewFields args = none ↔
      ∃ i, i % 2 = 0 ∧ i < args.length ∧ ∀ key, args[i]? ≠ some (Value.str key)) ∧
    (args.length % 2 = 1 → KeysAreStrings args → ∃ fields, NewFields args = some fields) := by
  constructor
  · rw [NewFields_eq]
    constructor
    · intro hnone
      by_cases hok : pairsOk (padArgs args) = true
      · rw [if_pos hok] at hnone
        exact Option.noConfusion hnone
      · have hnk : ¬ KeysAreStrings args := fun hk => hok ((pairsOk_padArgs args).mpr hk)
        unfold KeysAreStrings at hnk
        push_neg at hnk
        exact hnk
    · rintro ⟨i, hi, hlt, hne⟩
      have hnk : ¬ pairsOk (padArgs args) = true := by
        intro hok
        obtain ⟨key, hkey⟩ := (pairsOk_padArgs args).mp hok i hi hlt
        exact hne key hkey
      rw [if_neg hnk]
  · intro _ hk
    exact ⟨_, NewFields_of_keysAreStrings args hk⟩

end log

/-! ## Log facade -/

namespace log

open Go logrus rotatelogs lfshook

/-- C1: whatever the two thresholds were, `Kinfo` writes exactly one record, at info
severity and with the rendered arguments, to the output of the logger of the facade (the
hooks of that logger fire for the same record); afterwards the threshold of the standard
logger and the threshold of the logger of the facade read back as before, and the process
stands as it did. -/
theorem Kinfo_emits_and_restores {σ : Type} (Sprint : List (Value σ) → String)
    (l : eglooLogger σ) (args : List (Value σ)) (w : World σ) :
    ((l.Kinfo Sprint args w).logger l.logger.Logger).Out =
      (w.logger l.logger.Logger).Out ++ [⟨Level.InfoLevel, Sprint args, l.logger.Data⟩] ∧
    (l.Kinfo Sprint args w).emitted = w.emitted + 1 ∧
    (l.Kinfo Sprint args w).sink =
      fireHooks (w.logger l.logger.Logger).Hooks Level.InfoLevel
        ⟨Level.InfoLevel, Sprint args, l.logger.Data⟩ w.sink ∧
    ((l.Kinfo Sprint args w).logger LoggerRef.std).Level = (w.logger LoggerRef.std).Level ∧
    ((l.Kinfo Sprint args w).logger l.logger.Logger).Level =
      (w.logger l.logger.Logger).Level ∧
    (l.Kinfo Sprint args w).status = w.status := by
  obtain ⟨errorLevel, ⟨ref, data⟩⟩ := l
  cases ref <;>
    simp [eglooLogger.Kinfo, SetLevel, logrus.SetLevel, World.setLevel, World.setLogger,
      World.logger, Entry.Info, Entry.log, Level.toNat, World.emitted] <;> omega

theorem fatalf_std {σ : Type} (text : String) (w : World σ) (hrun : w.status = Status.running) :
    (logrus.Fatalf text w).status = Status.exited 1 ∧
    (logrus.Fatalf text w).own = w.own ∧
    (w.std.Level ≠ Level.PanicLevel →
      (logrus.Fatalf text w).std.Out = w.std.Out ++ [⟨Level.FatalLevel, text, []⟩]) ∧
    (w.std.Level = Level.PanicLevel → (logrus.Fatalf text w).std.Out = w.std.Out) := by
  obtain ⟨std, own, sink, status⟩ := w
  obtain ⟨out, hooks, formatter, level⟩ := std
  simp only at hrun
  subst hrun
  cases level <;>
    simp [logrus.Fatalf, Entry.Fatalf, NewEntry, Entry.log, World.andThen, Exit, World.logger,
      World.setLogger, Level.toNat]

/-- C2, amended: with a `nil` error `LogFatalIfError` changes nothing; with an error `e` the
process ends with exit code `1`, and before that exactly one record, of fatal severity and
text `msg ++ ": " ++ e`, is written to the output of the standard logger when its threshold
is not `PanicLevel`, and no record at all when it is. -/
theorem LogFatalIfError_spec {σ : Type} (l : eglooLogger σ) (msg : String) (w : World σ)
    (hrun : w.status = Status.running) :
    l.LogFatalIfError none msg w = w ∧
    ∀ e : String,
      (l.LogFatalIfError (some e) msg w).status = Status.exited 1 ∧
      (w.std.Level ≠ Level.PanicLevel →
        (l.LogFatalIfError (some e) msg w).std.Out =
          w.std.Out ++ [⟨Level.FatalLevel, msg ++ ": " ++ e, []⟩] ∧
        (l.LogFatalIfError (some e) msg w).emitted = w.emitted + 1) ∧
      (w.std.Level = Level.PanicLevel →
        (l.LogFatalIfError (some e) msg w).std.Out = w.std.Out ∧
        (l.LogFatalIfError (some e) msg w).emitted = w.emitted) := by
  refine ⟨rfl, ?_⟩
  intro e
  obtain ⟨hst, hown, hout, hsame⟩ := fatalf_std (fatalText msg e) w hrun
  have hdone : l.LogFatalIfError (some e) msg w = logrus.Fatalf (fatalText msg e) w := by
    simp only [eglooLogger.LogFatalIfError, World.andThen, hst]
  rw [hdone]
  refine ⟨hst, ?_, ?_⟩
  · intro hne
    refine ⟨hout hne, ?_⟩
    simp only [World.emitted, hout hne, hown, List.length_append, List.length_singleton]
    omega
  · intro heq
    refine ⟨hsame heq, ?_⟩
    simp only [World.emitted, hsame heq, hown]

/-- C2 (amended) on a facade of the standard logger in the state a fresh process has. -/
theorem LogFatalIfError_spec_witness :
    (World.initial Unit).status = Status.running ∧
    ((⟨Level.PanicLevel, logrus.WithFields []⟩ : eglooLogger Unit).LogFatalIfError
      (some "boom") "x" (World.initial Unit)).status = Status.exited 1 ∧
    ((⟨Level.PanicLevel, logrus.WithFields []⟩ : eglooLogger Unit).LogFatalIfError
      (some "boom") "x" (World.initial Unit)).emitted = 1 := by
  have h := (LogFatalIfError_spec (⟨Level.PanicLevel, logrus.WithFields []⟩ : eglooLogger Unit)
    "x" (World.initial Unit) rfl).2 "boom"
  refine ⟨rfl, h.1, ?_⟩
  have h2 := (h.2.1 (by simp [World.initial])).2
  simpa [World.emitted, World.initial] using h2

/-- C2 fails as stated: with the threshold of the standard logger at `PanicLevel`, a call
with a non-nil error writes no record and still ends the process. -/
theorem LogFatalIfError_silent_at_PanicLevel :
    ((logrus.SetLevel Level.PanicLevel (World.initial Unit)).status = Status.running) ∧
    ((⟨Level.PanicLevel, logrus.WithFields []⟩ : eglooLogger Unit).LogFatalIfError
      (some "boom") "x" (logrus.SetLevel Level.PanicLevel (World.initial Unit))).emitted = 0 ∧
    ((⟨Level.PanicLevel, logrus.WithFields []⟩ : eglooLogger Unit).LogFatalIfError
      (some "boom") "x" (logrus.SetLevel Level.PanicLevel (World.initial Unit))).status =
        Status.exited 1 := by
  refine ⟨by decide, by decide, by decide⟩

/-- C8 evaluated: on the facade that `NewEglooLogger` returns for the service `svc` in a
fresh process, `LogFatalIfError` with the error `boom` and the message `x` leaves exactly
one fatal record `x: boom` on the output of the standard logger, which is also the logger of
the facade, and the process has ended; the second `Fatalf` of the source has not run. -/
theorem LogFatalIfError_writes_once :
    (NewEglooLogger sprintStrings none "svc" (World.initial Unit)).1.map
      (fun l =>
        ((l.LogFatalIfError (some "boom") "x"
            (NewEglooLogger sprintStrings none "svc" (World.initial Unit)).2).std.Out.map
            viewRecord,
          (l.LogFatalIfError (some "boom") "x"
            (NewEglooLogger sprintStrings none "svc" (World.initial Unit)).2).own.Out.map
            viewRecord,
          (l.LogFatalIfError (some "boom") "x"
            (NewEglooLogger sprintStrings none "svc" (World.initial Unit)).2).status,
          l.logger.Logger)) =
      some ([(Level.FatalLevel, "x: boom")], [], Status.exited 1, LoggerRef.std) := by
  decide

theorem run_of_success {σ : Type} (Sprint : List (Value σ) → String) (c : Construction σ)
    (w : World σ) (hc : c.failure = none) :
    c.run Sprint w =
      (w.setFormatter LoggerRef.std Formatter.JSON).addHook LoggerRef.std
        (sinkHook (serviceWriter c.serviceName)) := by
  cases c with
  | plain failure serviceName =>
    simp only [Construction.failure] at hc
    subst hc
    rfl
  | withFields failure serviceName fields =>
    simp only [Construction.failure] at hc
    subst hc
    rfl

theorem run_of_failure {σ : Type} (Sprint : List (Value σ) → String) (c : Construction σ)
    (w : World σ) (hrun : w.status = Status.running) (hc : c.failure ≠ none) :
    (c.run Sprint w).status = Status.exited 1 := by
  obtain ⟨std, own, sink, status⟩ := w
  obtain ⟨out, hooks, formatter, level⟩ := std
  simp only at hrun
  subst hrun
  cases c with
  | plain failure serviceName =>
    cases failure with
    | none => exact absurd rfl hc
    | some e =>
      cases level <;>
        simp [Construction.run, NewEglooLogger, newWriter, rotatelogs.New, failToCreate,
          Entry.Fatal, logrus.WithFields, Entry.WithFields, NewEntry, Entry.log, World.andThen,
          Exit, World.logger, World.setLogger, Level.toNat]
  | withFields failure serviceName fields =>
    cases failure with
    | none => exact absurd rfl hc
    | some e =>
      cases level <;>
        simp [Construction.run, NewEglooLoggerWithFields, newWriter, rotatelogs.New,
          failToCreate, Entry.Fatal, logrus.WithFields, Entry.WithFields, NewEntry, Entry.log,
          World.andThen, Exit, World.logger, World.setLogger, Level.toNat]

theorem constructAll_cons {σ : Type} (Sprint : List (Value σ) → String) (c : Construction σ)
    (cs : List (Construction σ)) (w : World σ) :
    constructAll Sprint (c :: cs) w = constructAll Sprint cs (w.andThen (c.run Sprint)) := rfl

theorem constructAll_of_stopped {σ : Type} (Sprint : List (Value σ) → String)
    (cs : List (Construction σ)) : ∀ (w : World σ), w.status ≠ Status.running →
      constructAll Sprint cs w = w := by
  induction cs with
  | nil => intro w _; rfl
  | cons c cs ih =>
    intro w hw
    have hstep : w.andThen (c.run Sprint) = w := by
      unfold World.andThen
      cases hs : w.status with
      | running => exact absurd hs hw
      | exited code => rfl
      | panicked => rfl
    rw [constructAll_cons, hstep]
    exact ih w hw

theorem fireHooks_sinkHooks {σ : Type} (r : Record σ)
    (names : List String) : ∀ sink : List (RotateLogs × Record σ),
      fireHooks (names.map (fun n => sinkHook (serviceWriter n))) Level.InfoLevel r sink =
        sink ++ names.map (fun n => (serviceWriter n, r)) := by
  induction names with
  | nil => intro sink; simp [fireHooks]
  | cons n names ih =>
    intro sink
    have ih2 := ih (sink ++ [(serviceWriter n, r)])
    unfold fireHooks at ih2
    unfold fireHooks
    simp only [List.map_cons, List.foldl_cons]
    have hstep : (if Level.InfoLevel ∈ (sinkHook (serviceWriter n)).Levels then
        match (sinkHook (serviceWriter n)).writerFor Level.InfoLevel with
        | some wr => sink ++ [(wr, r)]
        | none => sink
      else sink) = sink ++ [(serviceWriter n, r)] := by
      simp [sinkHook, lfshook.NewHook, Hook.Levels, Hook.writerFor]
    rw [hstep, ih2]
    simp

theorem constructAll_success {σ : Type} (Sprint : List (Value σ) → String)
    (cs : List (Construction σ)) : ∀ (w : World σ), w.status = Status.running →
      (∀ c ∈ cs, c.failure = none) →
      (constructAll Sprint cs w).status = Status.running ∧
      (constructAll Sprint cs w).std.Hooks =
        w.std.Hooks ++ cs.map (fun c => sinkHook (serviceWriter c.serviceName)) ∧
      (constructAll Sprint cs w).std.Level = w.std.Level ∧
      (constructAll Sprint cs w).std.Out = w.std.Out ∧
      (constructAll Sprint cs w).own = w.own ∧
      (constructAll Sprint cs w).sink = w.sink := by
  induction cs with
  | nil => intro w hrun _; simp [constructAll, hrun]
  | cons c cs ih =>
    intro w hrun hall
    have hc : c.failure = none := hall c (List.mem_cons_self c cs)
    have hrest : ∀ c2 ∈ cs, c2.failure = none := fun c2 h2 =>
      hall c2 (List.mem_cons_of_mem c h2)
    have hstep : w.andThen (c.run Sprint) =
        (w.setFormatter LoggerRef.std Formatter.JSON).addHook LoggerRef.std
          (sinkHook (serviceWriter c.serviceName)) := by
      simp only [World.andThen, hrun, run_of_success Sprint c w hc]
    have hrun2 : ((w.setFormatter LoggerRef.std Formatter.JSON).addHook LoggerRef.std
        (sinkHook (serviceWriter c.serviceName))).status = Status.running := by
      simpa [World.setFormatter, World.addHook, World.setLogger, World.logger] using hrun
    obtain ⟨h1, h2, h3, h4, h5, h6⟩ := ih _ hrun2 hrest
    rw [constructAll_cons, hstep]
    refine ⟨h1, ?_, ?_, ?_, ?_, ?_⟩
    · rw [h2]
      simp [World.setFormatter, World.addHook, World.setLogger, World.logger]
    · rw [h3]
      simp [World.setFormatter, World.addHook, World.setLogger, World.logger]
    · rw [h4]
      simp [World.setFormatter, World.addHook, World.setLogger, World.logger]
    · rw [h5]
      simp [World.setFormatter, World.addHook, World.setLogger, World.logger]
    · rw [h6]
      simp [World.setFormatter, World.addHook, World.setLogger, World.logger]

theorem constructAll_failure {σ : Type} (Sprint : List (Value σ) → String)
    (cs : List (Construction σ)) : ∀ (w : World σ), w.status = Status.running →
      (∃ c ∈ cs, c.failure ≠ none) →
      (constructAll Sprint cs w).status = Status.exited 1 := by
  induction cs with
  | nil => intro w _ h; obtain ⟨c, hc, _⟩ := h; simp at hc
  | cons c cs ih =>
    intro w hrun hex
    have hand : w.andThen (c.run Sprint) = c.run Sprint w := by
      simp only [World.andThen, hrun]
    rw [constructAll_cons, hand]
    by_cases hc : c.failure = none
    · have hrun2 : (c.run Sprint w).status = Status.running := by
        rw [run_of_success Sprint c w hc]
        simpa [World.setFormatter, World.addHook, World.setLogger, World.logger] using hrun
      apply ih _ hrun2
      obtain ⟨c2, hmem, hne⟩ := hex
      rcases List.mem_cons.mp hmem with h | h
      · subst h
        exact absurd hc hne
      · exact ⟨c2, h, hne⟩
    · have hstop := run_of_failure Sprint c w hrun hc
      rw [constructAll_of_stopped Sprint cs _ (by rw [hstop]; exact fun h => Status.noConfusion h)]
      exact hstop

theorem Info_of_enabled {σ : Type} (Sprint : List (Value σ) → String) (args : List (Value σ))
    (w : World σ) (h : w.std.Level.toNat ≥ Level.InfoLevel.toNat) :
    (Info Sprint args w).std.Out = w.std.Out ++ [⟨Level.InfoLevel, Sprint args, []⟩] ∧
    (Info Sprint args w).sink =
      fireHooks w.std.Hooks Level.InfoLevel ⟨Level.InfoLevel, Sprint args, []⟩ w.sink := by
  have hpanic : ¬ Level.InfoLevel.toNat ≤ Level.PanicLevel.toNat := by decide
  simp only [Info, logrus.Info, Entry.Info, NewEntry, World.logger, h, if_true, Entry.log,
    World.setLogger, hpanic, if_false, and_self]

theorem Info_of_disabled {σ : Type} (Sprint : List (Value σ) → String)
    (args : List (Value σ)) (w : World σ) (h : w.std.Level.toNat < Level.InfoLevel.toNat) :
    Info Sprint args w = w := by
  have h2 : ¬ w.std.Level.toNat ≥ Level.InfoLevel.toNat := by omega
  simp only [Info, logrus.Info, h2, if_false]

/-- C9 fails as stated: after one successful `NewEglooLogger` in a fresh process the
standard logger holds the sink hook of the service, and a package-level `Info` is written
to the rotating-file sink of the service as well as to the default output. -/
theorem NewEglooLogger_hooks_standard_logger :
    (constructAll sprintStrings [Construction.plain none "svc"] (World.initial Unit)).std.Hooks =
      [sinkHook (serviceWriter "svc")] ∧
    (Info sprintStrings [Value.str "hi"]
      (constructAll sprintStrings [Construction.plain none "svc"]
        (World.initial Unit))).sink.map (fun p => (p.1.linkName, viewRecord p.2)) =
      [("/var/log/svc.log", (Level.InfoLevel, "hi"))] ∧
    (Info sprintStrings [Value.str "hi"]
      (constructAll sprintStrings [Construction.plain none "svc"]
        (World.initial Unit))).std.Out.map viewRecord = [(Level.InfoLevel, "hi")] := by
  refine ⟨by decide, by decide, by decide⟩

/-- C9, amended: in a running process whose standard logger has no hooks, a sequence of
constructor calls leaves the process running exactly when every call gets its writer; then
the hooks of the standard logger are the sink hooks of the constructed services, one for
each call and in call order, and a package-level `Info` that the threshold admits is
written once to the default output and once to the sink of every constructed service; an
`Info` below the threshold changes nothing. -/
theorem constructors_hook_standard_logger {σ : Type} (Sprint : List (Value σ) → String)
    (cs : List (Construction σ)) (args : List (Value σ)) (w : World σ)
    (hrun : w.status = Status.running) (hnone : w.std.Hooks = []) :
    ((constructAll Sprint cs w).status = Status.running ↔ ∀ c ∈ cs, c.failure = none) ∧
    ((∀ c ∈ cs, c.failure = none) →
      (constructAll Sprint cs w).std.Hooks =
        cs.map (fun c => sinkHook (serviceWriter c.serviceName)) ∧
      (w.std.Level.toNat ≥ Level.InfoLevel.toNat →
        (Info Sprint args (constructAll Sprint cs w)).std.Out =
          w.std.Out ++ [⟨Level.InfoLevel, Sprint args, []⟩] ∧
        (Info Sprint args (constructAll Sprint cs w)).sink =
          w.sink ++ cs.map (fun c =>
            (serviceWriter c.serviceName, ⟨Level.InfoLevel, Sprint args, []⟩))) ∧
      (w.std.Level.toNat < Level.InfoLevel.toNat →
        Info Sprint args (constructAll Sprint cs w) = constructAll Sprint cs w)) := by
  constructor
  · constructor
    · intro hst
      by_contra hall
      push_neg at hall
      have hex := constructAll_failure Sprint cs w hrun hall
      rw [hex] at hst
      exact Status.noConfusion hst
    · intro hall
      exact (constructAll_success Sprint cs w hrun hall).1
  · intro hall
    obtain ⟨_, hhooks, hlevel, hout, _, hsink⟩ := constructAll_success Sprint cs w hrun hall
    rw [hnone, List.nil_append] at hhooks
    refine ⟨hhooks, ?_, ?_⟩
    · intro hge
      have hge2 : (constructAll Sprint cs w).std.Level.toNat ≥ Level.InfoLevel.toNat := by
        rw [hlevel]
        exact hge
      obtain ⟨h1, h2⟩ := Info_of_enabled Sprint args _ hge2
      refine ⟨by rw [h1, hout], ?_⟩
      rw [h2, hhooks, hsink]
      have hmap : cs.map (fun c => sinkHook (serviceWriter c.serviceName)) =
          (cs.map Construction.serviceName).map (fun n => sinkHook (serviceWriter n)) := by
        rw [List.map_map]
        rfl
      rw [hmap, fireHooks_sinkHooks, List.map_map]
      rfl
    · intro hlt
      apply Info_of_disabled
      rw [hlevel]
      exact hlt

/-- C9 (amended) on two successful constructor calls in a fresh process. -/
theorem constructors_hook_standard_logger_witness :
    (World.initial Unit).status = Status.running ∧ (World.initial Unit).std.Hooks = [] ∧
    (constructAll sprintStrings
      [Construction.plain none "a", Construction.withFields none "b" ⟨[]⟩]
      (World.initial Unit)).std.Hooks =
        [sinkHook (serviceWriter "a"), sinkHook (serviceWriter "b")] := by
  have h := (constructors_hook_standard_logger sprintStrings
    [Construction.plain none "a", Construction.withFields none "b" ⟨[]⟩] []
    (World.initial Unit) rfl rfl).2 (by
      intro c hc
      simp only [List.mem_cons, List.mem_singleton, List.not_mem_nil, or_false] at hc
      rcases hc with rfl | rfl <;> rfl)
  exact ⟨rfl, rfl, h.1⟩

end log
